import Mathlib

/-!
Verification of the concurrent unique-coupon generation engine of this
repository (`PlayingAround/src/bin/coupon_generator_to_csv_latest.rs`,
`coupon_generator_API.rs`, `coupon_generator_large.rs`).

The three Rust binaries share a common core, embedded once below:
the 36-symbol charset, the byte-to-char lookup table, the single-coupon
generator, and the pre-flight validation (initials-length check and
combinatorial-capacity check).  Machine integers (`usize`, `u128`, `u32`)
are modelled as `Nat` with explicit reductions modulo `2^64`, `2^128`,
`2^32` at the points where the Rust code wraps or truncates
(release-mode wrapping subtraction, `as usize` / `as u32` casts).

On top of the core:
* a labelled transition system models the ticket-based parallel worker
  loop of `coupon_generator_to_csv_latest.rs` (shared atomic counter +
  mutex-guarded `HashSet` insert);
* a pure trace model captures the linearized behaviour of the atomic
  ticket counter;
* a pull relation models the lazy `futures::stream::unfold` generator of
  `coupon_generator_API.rs`;
* a second transition system models the ticket-less worker loop of
  `coupon_generator_large.rs`;
* list-of-lines render/parse functions model the CSV export.
-/

/-- A generated code, modelled as its character sequence. -/
abbrev Code := List Char

/-- The character set `b"ABCDEFGHIJKLMNOPQRSTUVWXYZ0123456789"` (as characters). -/
def charsetChars : List Char :=
  ['A', 'B', 'C', 'D', 'E', 'F', 'G', 'H', 'I', 'J', 'K', 'L', 'M',
   'N', 'O', 'P', 'Q', 'R', 'S', 'T', 'U', 'V', 'W', 'X', 'Y', 'Z',
   '0', '1', '2', '3', '4', '5', '6', '7', '8', '9']

/-- `CHARSET`: the byte values of the charset literal. -/
def CHARSET : List Nat := charsetChars.map Char.toNat

/-- `CHARSET_LEN = CHARSET.len()`. -/
def CHARSET_LEN : Nat := CHARSET.length

/-- `CHAR_LOOKUP`: a 256-entry table, `'\0'` everywhere except that each
charset byte value maps to its own character (built by the
`lazy_static` initialisation loop). -/
def CHAR_LOOKUP : List Char :=
  CHARSET.foldl (fun acc b => acc.set b (Char.ofNat b)) (List.replicate 256 (Char.ofNat 0))

/-- One iteration of the byte-to-symbol conversion in `generate_coupon`:
`CHAR_LOOKUP[CHARSET[byte as usize % CHARSET_LEN] as usize]`. -/
def couponChar (byte : Nat) : Char :=
  CHAR_LOOKUP.getD (CHARSET.getD (byte % CHARSET_LEN) 0) (Char.ofNat 0)

/-- `generate_coupon(rng, code_len, initials)`: the initials followed by
the conversion of each random byte of the buffer.  The random buffer is
made explicit as the `bytes` argument (the function is deterministic in
it). -/
def generate_coupon (initials : Code) (bytes : List Nat) : Code :=
  initials ++ bytes.map couponChar

/-- The mapping described by the specification: the character at index
`byte % 36` of the 36-symbol alphabet `A-Z,0-9`. -/
def specSuffixChar (byte : Nat) : Char :=
  charsetChars.getD (byte % 36) (Char.ofNat 0)

/-- `usize::MAX + 1 = 2^64`. -/
def USIZE_MOD : Nat := 18446744073709551616

/-- `u128::MAX + 1 = 2^128`. -/
def U128_MOD : Nat := 340282366920938463463374607431768211456

/-- `u32::MAX + 1 = 2^32`. -/
def U32_MOD : Nat := 4294967296

/-- The error cases of the validation phase (`CouponError`); the I/O
variants are out of scope of these claims. -/
inductive CouponError where
  | InitialsTooLong : Nat → Nat → CouponError
  | TooManyCoupons : Nat → Nat → CouponError
  deriving DecidableEq

/-- `(CHARSET_LEN as u128).pow(code_len as u32)`: the `as u32` cast
truncates the exponent modulo `2^32`, and `u128` exponentiation wraps
modulo `2^128` (release mode). -/
def max_combinations (code_len : Nat) : Nat :=
  CHARSET_LEN ^ (code_len % U32_MOD) % U128_MOD

/-- The validation prefix of `coupon_generator` (identical in
`coupon_generator_to_csv_latest.rs` and `coupon_generator_API.rs`):
`code_len = len as usize - initial_len` (release-mode wrapping
subtraction on `usize`), then the initials-length check, then the
capacity check `number_coupons > max_combinations as usize` (the cast
truncates the `u128` value modulo `2^64`). -/
def validate (len number_coupons initial_len : Nat) : Except CouponError Nat :=
  let code_len := (len % USIZE_MOD + USIZE_MOD - initial_len % USIZE_MOD) % USIZE_MOD
  if initial_len > len then
    Except.error (CouponError.InitialsTooLong initial_len len)
  else
    let mc := max_combinations code_len
    if number_coupons > mc % USIZE_MOD then
      Except.error (CouponError.TooManyCoupons number_coupons mc)
    else
      Except.ok code_len

lemma charset_len_eq : CHARSET_LEN = 36 := rfl

lemma couponChar_eq_specSuffixChar : couponChar = specSuffixChar := by
  funext b
  have hlt : b % 36 < 36 := Nat.mod_lt b (by norm_num)
  have key : ∀ i, i < 36 →
      CHAR_LOOKUP.getD (CHARSET.getD i 0) (Char.ofNat 0) = charsetChars.getD i (Char.ofNat 0) := by
    decide
  have : couponChar b = CHAR_LOOKUP.getD (CHARSET.getD (b % 36) 0) (Char.ofNat 0) := by
    rw [couponChar, charset_len_eq]
  rw [this, specSuffixChar]
  exact key (b % 36) hlt

/-- C5: `generate_candidate` is a deterministic function of its inputs:
given a fixed sequence of random bytes it returns the prefix followed by
one symbol per byte, the i-th suffix symbol being the character at index
`byte_i % 36` of the 36-symbol alphabet `A-Z,0-9`. -/
theorem C5_generate_candidate_deterministic (initials : Code) (bytes : List Nat) :
    generate_coupon initials bytes = initials ++ bytes.map specSuffixChar ∧
    (generate_coupon initials bytes).length = initials.length + bytes.length := by
  constructor
  · rw [generate_coupon, couponChar_eq_specSuffixChar]
  · simp [generate_coupon]

lemma pow_lt_usize_imp_le_twelve {k : Nat} (h : 36 ^ k < USIZE_MOD) : k ≤ 12 := by
  by_contra hgt
  push_neg at hgt
  have h13 : (36 : Nat) ^ 13 ≤ 36 ^ k := Nat.pow_le_pow_right (by norm_num) hgt
  have : (36 : Nat) ^ 13 < USIZE_MOD := lt_of_le_of_lt h13 h
  rw [USIZE_MOD] at this
  norm_num at this

lemma max_combinations_small {k : Nat} (hk : k ≤ 12) : max_combinations k = 36 ^ k := by
  have hexp : k % U32_MOD = k := by
    apply Nat.mod_eq_of_lt
    rw [U32_MOD]; omega
  have hlt : (36 : Nat) ^ k < U128_MOD := by
    have : (36 : Nat) ^ k ≤ 36 ^ 12 := Nat.pow_le_pow_right (by norm_num) hk
    rw [U128_MOD]
    calc (36 : Nat) ^ k ≤ 36 ^ 12 := this
      _ < 340282366920938463463374607431768211456 := by norm_num
  rw [max_combinations, charset_len_eq, hexp, Nat.mod_eq_of_lt hlt]

lemma pow_lt_usize_of_le_twelve {k : Nat} (hk : k ≤ 12) : 36 ^ k < USIZE_MOD := by
  have : (36 : Nat) ^ k ≤ 36 ^ 12 := Nat.pow_le_pow_right (by norm_num) hk
  rw [USIZE_MOD]
  calc (36 : Nat) ^ k ≤ 36 ^ 12 := this
    _ < 18446744073709551616 := by norm_num

lemma wrapping_code_len {len il : Nat} (hle : il ≤ len) (hlen : len ≤ 65535) :
    (len % USIZE_MOD + USIZE_MOD - il % USIZE_MOD) % USIZE_MOD = len - il := by
  rw [USIZE_MOD]
  omega

/-- C10: the capacity check compares `required_count` against the `u128`
value `36^suffix_length` cast to `usize` (truncation modulo `2^64`); for
every suffix length at most 12 the truncation is the identity, so the
comparison is exact: it holds precisely when `required_count` exceeds the
true combinatorial space `CHARSET_LEN ^ suffix_length`. -/
theorem C10_capacity_truncation_exact (s nc : Nat) (hs : s ≤ 12) :
    (nc > max_combinations s % USIZE_MOD ↔ nc > CHARSET_LEN ^ s) := by
  rw [max_combinations_small hs, charset_len_eq,
    Nat.mod_eq_of_lt (pow_lt_usize_of_le_twelve hs)]

theorem C10_witness :
    ((36 ^ 12 + 1 > max_combinations 12 % USIZE_MOD) ↔ (36 ^ 12 + 1 > CHARSET_LEN ^ 12)) :=
  C10_capacity_truncation_exact 12 (36 ^ 12 + 1) (by norm_num)

/-- C3: for every request with `len(prefix) ≤ total_length` (and
representable `required_count : usize`), the validator accepts
`required_count = 36^(total_length - len(prefix))` and rejects
`required_count = 36^(total_length - len(prefix)) + 1` with the
too-many-coupons error. -/
theorem C3_capacity_boundary (len il : Nat) (hle : il ≤ len) (hlen : len ≤ 65535)
    (hrep : 36 ^ (len - il) < USIZE_MOD) :
    validate len (36 ^ (len - il)) il = Except.ok (len - il) ∧
    validate len (36 ^ (len - il) + 1) il =
      Except.error (CouponError.TooManyCoupons (36 ^ (len - il) + 1) (36 ^ (len - il))) := by
  have hk : len - il ≤ 12 := pow_lt_usize_imp_le_twelve hrep
  have hng : ¬ il > len := not_lt.mpr hle
  have hmc : max_combinations (len - il) = 36 ^ (len - il) := max_combinations_small hk
  have hmod : 36 ^ (len - il) % USIZE_MOD = 36 ^ (len - il) := Nat.mod_eq_of_lt hrep
  constructor
  · simp only [validate, wrapping_code_len hle hlen, hmc, hmod, if_neg hng,
      if_neg (lt_irrefl (36 ^ (len - il)))]
  · simp only [validate, wrapping_code_len hle hlen, hmc, hmod, if_neg hng,
      if_pos (Nat.lt_succ_self (36 ^ (len - il)))]

theorem C3_witness :
    validate 3 (36 ^ 2) 1 = Except.ok 2 ∧
    validate 3 (36 ^ 2 + 1) 1 =
      Except.error (CouponError.TooManyCoupons (36 ^ 2 + 1) (36 ^ 2)) :=
  C3_capacity_boundary 3 1 (by norm_num) (by norm_num) (by norm_num [USIZE_MOD])

namespace ToCsv

/-!
Transition-system model of the parallel worker loop of
`coupon_generator_to_csv_latest.rs` (lines 113-141).  The shared state is
the atomic ticket counter and the mutex-guarded coupon set; each of the
`w` workers is in one of three phases: about to claim a ticket
(`claiming`, the top of the outer loop), holding a ticket and retrying
generation (`generating`, the inner loop), or broken out (`done`).  Each
transition is one atomic action: a `fetch_add` on the counter, or one
generate-and-insert attempt under the mutex.
-/

/-- The control position of one worker in the outer/inner loop. -/
inductive Phase where
  | claiming
  | generating
  | done
  deriving DecidableEq

/-- The shared state: the atomic counter and the deduplication set. -/
structure GenState where
  counter : Nat
  coupons : Finset Code

/-- Shared state plus the phase of each of the `w` workers. -/
structure Config (w : Nat) where
  shared : GenState
  phases : Fin w → Phase

/-- Initial configuration: counter 0, empty set, all workers at the top
of the outer loop. -/
def initConfig (w : Nat) : Config w :=
  ⟨⟨0, ∅⟩, fun _ => Phase.claiming⟩

/-- All workers have broken out of their loops. -/
def Terminal {w : Nat} (cfg : Config w) : Prop :=
  ∀ i, cfg.phases i = Phase.done

/-- One atomic action of one worker, parametrized by the target count
`n`, the random-suffix length `codeLen` and the initials. -/
inductive WStep (n codeLen : Nat) (initials : Code) (w : Nat) :
    Config w → Config w → Prop where
  /-- `counter.fetch_add(1)` returned a value `< number_coupons`: the
  worker enters the inner generation loop. -/
  | claimLow (cfg : Config w) (i : Fin w) :
      cfg.phases i = Phase.claiming →
      cfg.shared.counter < n →
      WStep n codeLen initials w cfg
        ⟨⟨cfg.shared.counter + 1, cfg.shared.coupons⟩,
          Function.update cfg.phases i Phase.generating⟩
  /-- `counter.fetch_add(1)` returned a value `≥ number_coupons`: the
  worker breaks out of the outer loop. -/
  | claimHigh (cfg : Config w) (i : Fin w) :
      cfg.phases i = Phase.claiming →
      n ≤ cfg.shared.counter →
      WStep n codeLen initials w cfg
        ⟨⟨cfg.shared.counter + 1, cfg.shared.coupons⟩,
          Function.update cfg.phases i Phase.done⟩
  /-- One generation attempt whose candidate is fresh: `set.insert`
  returns true, the worker leaves the inner loop. -/
  | acceptNew (cfg : Config w) (i : Fin w) (bytes : List Nat) :
      cfg.phases i = Phase.generating →
      bytes.length = codeLen →
      (∀ b ∈ bytes, b < 256) →
      generate_coupon initials bytes ∉ cfg.shared.coupons →
      WStep n codeLen initials w cfg
        ⟨⟨cfg.shared.counter, insert (generate_coupon initials bytes) cfg.shared.coupons⟩,
          Function.update cfg.phases i Phase.claiming⟩
  /-- One generation attempt whose candidate collides: `set.insert`
  returns false, the worker retries. -/
  | rejectDup (cfg : Config w) (i : Fin w) (bytes : List Nat) :
      cfg.phases i = Phase.generating →
      bytes.length = codeLen →
      (∀ b ∈ bytes, b < 256) →
      generate_coupon initials bytes ∈ cfg.shared.coupons →
      WStep n codeLen initials w cfg cfg

/-- A run of `k` atomic worker actions. -/
inductive RunN (n codeLen : Nat) (initials : Code) (w : Nat) :
    Nat → Config w → Config w → Prop where
  | refl (cfg : Config w) : RunN n codeLen initials w 0 cfg cfg
  | tail {k : Nat} {a b c : Config w} :
      RunN n codeLen initials w k a b →
      WStep n codeLen initials w b c →
      RunN n codeLen initials w (k + 1) a c

/-- The whole `coupon_generator` call: validation first; on success, the
result set is the coupon set of any terminated run of the worker pool
from the initial configuration, the `Nat` index counting the atomic
generation-phase actions performed. -/
inductive couponGeneratorRel (w len n : Nat) (initials : Code) :
    Except CouponError (Finset Code) → Nat → Prop where
  | err (e : CouponError) :
      validate len n initials.length = Except.error e →
      couponGeneratorRel w len n initials (Except.error e) 0
  | ok (codeLen k : Nat) (cfg : Config w) :
      validate len n initials.length = Except.ok codeLen →
      RunN n codeLen initials w k (initConfig w) cfg →
      Terminal cfg →
      couponGeneratorRel w len n initials (Except.ok cfg.shared.coupons) k

/-- Number of workers whose phase is `p`. -/
def phaseCount {w : Nat} (p : Phase) (ph : Fin w → Phase) : Nat :=
  ∑ i, if ph i = p then 1 else 0

lemma phaseCount_split {w : Nat} (p : Phase) (f : Fin w → Phase) (i : Fin w) :
    phaseCount p f =
      (if f i = p then 1 else 0) + ∑ j ∈ Finset.univ.erase i, (if f j = p then (1 : Nat) else 0) := by
  rw [phaseCount, ← Finset.add_sum_erase Finset.univ _ (Finset.mem_univ i)]

lemma phaseCount_update {w : Nat} (p : Phase) (ph : Fin w → Phase) (i : Fin w) (v : Phase) :
    phaseCount p (Function.update ph i v) + (if ph i = p then 1 else 0)
      = phaseCount p ph + (if v = p then 1 else 0) := by
  rw [phaseCount_split p (Function.update ph i v) i, phaseCount_split p ph i,
    Function.update_same,
    Finset.sum_congr rfl
      (fun j hj => by rw [Function.update_noteq (Finset.ne_of_mem_erase hj)])]
  ring

lemma phaseCount_const_claiming {w : Nat} (p : Phase) (hp : p ≠ Phase.claiming) :
    phaseCount p (fun _ : Fin w => Phase.claiming) = 0 := by
  rw [phaseCount]
  exact Finset.sum_eq_zero (fun i _ => if_neg (fun h => hp h.symm))

/-- The run invariant: (1) accepted coupons plus workers currently in the
inner loop account exactly for the tickets handed out so far (capped at
`n`); (2) every accepted coupon has the right shape; (3) a worker can
only have broken out after the counter passed `n`. -/
def Inv (n codeLen : Nat) (initials : Code) {w : Nat} (cfg : Config w) : Prop :=
  (cfg.shared.coupons.card + phaseCount Phase.generating cfg.phases
      = min cfg.shared.counter n)
  ∧ (∀ c ∈ cfg.shared.coupons, c.length = initials.length + codeLen ∧ initials <+: c)
  ∧ ((∃ i, cfg.phases i = Phase.done) → n ≤ cfg.shared.counter)

lemma inv_init (n codeLen : Nat) (initials : Code) (w : Nat) :
    Inv n codeLen initials (initConfig w) := by
  refine ⟨?_, ?_, ?_⟩
  · simp [initConfig, phaseCount_const_claiming Phase.generating (by simp)]
  · intro c hc
    simp [initConfig] at hc
  · rintro ⟨i, hi⟩
    simp [initConfig] at hi

lemma inv_step {n codeLen : Nat} {initials : Code} {w : Nat} {cfg cfg' : Config w}
    (hstep : WStep n codeLen initials w cfg cfg') (hinv : Inv n codeLen initials cfg) :
    Inv n codeLen initials cfg' := by
  obtain ⟨hcount, helems, hdone⟩ := hinv
  cases hstep with
  | claimLow i hph hc =>
    refine ⟨?_, helems, ?_⟩
    · have hupd := phaseCount_update Phase.generating cfg.phases i Phase.generating
      rw [hph] at hupd
      simp at hupd
      dsimp only
      omega
    · rintro ⟨j, hj⟩
      have hj' : Function.update cfg.phases i Phase.generating j = Phase.done := hj
      by_cases hji : j = i
      · subst hji
        rw [Function.update_same] at hj'
        exact absurd hj' (by simp)
      · rw [Function.update_noteq hji] at hj'
        have := hdone ⟨j, hj'⟩
        dsimp only
        omega
  | claimHigh i hph hc =>
    refine ⟨?_, helems, ?_⟩
    · have hupd := phaseCount_update Phase.generating cfg.phases i Phase.done
      rw [hph] at hupd
      simp at hupd
      dsimp only
      omega
    · intro _
      dsimp only
      omega
  | acceptNew i bytes hph hblen hbytes hfresh =>
    refine ⟨?_, ?_, ?_⟩
    · have hupd := phaseCount_update Phase.generating cfg.phases i Phase.claiming
      rw [hph] at hupd
      simp at hupd
      have hcard := Finset.card_insert_of_not_mem hfresh
      dsimp only
      rw [hcard]
      omega
    · intro c hc
      dsimp only at hc
      rw [Finset.mem_insert] at hc
      rcases hc with hc | hc
      · subst hc
        constructor
        · simp [generate_coupon, hblen]
        · exact List.prefix_append initials (bytes.map couponChar)
      · exact helems c hc
    · rintro ⟨j, hj⟩
      have hj' : Function.update cfg.phases i Phase.claiming j = Phase.done := hj
      by_cases hji : j = i
      · subst hji
        rw [Function.update_same] at hj'
        exact absurd hj' (by simp)
      · rw [Function.update_noteq hji] at hj'
        exact hdone ⟨j, hj'⟩
  | rejectDup i bytes hph hblen hbytes hdup =>
    exact ⟨hcount, helems, hdone⟩

lemma inv_run {n codeLen : Nat} {initials : Code} {w k : Nat} {a b : Config w}
    (hrun : RunN n codeLen initials w k a b) (hinv : Inv n codeLen initials a) :
    Inv n codeLen initials b := by
  induction hrun with
  | refl cfg => exact hinv
  | tail hrun hstep ih => exact inv_step hstep (ih hinv)

lemma phaseCount_terminal {w : Nat} {cfg : Config w} (hT : Terminal cfg) :
    phaseCount Phase.generating cfg.phases = 0 := by
  rw [phaseCount]
  exact Finset.sum_eq_zero (fun i _ => by rw [hT i]; simp)

lemma terminal_card {n codeLen : Nat} {initials : Code} {w : Nat} {cfg : Config w}
    (hw : 1 ≤ w) (hinv : Inv n codeLen initials cfg) (hT : Terminal cfg) :
    cfg.shared.coupons.card = n := by
  obtain ⟨hcount, _, hdone⟩ := hinv
  have hge : n ≤ cfg.shared.counter := hdone ⟨⟨0, hw⟩, hT ⟨0, hw⟩⟩
  rw [phaseCount_terminal hT] at hcount
  omega

lemma validate_ok_elim {len n il cl : Nat} (hlen : len ≤ 65535)
    (h : validate len n il = Except.ok cl) : il ≤ len ∧ cl = len - il := by
  by_cases hgt : il > len
  · simp only [validate, if_pos hgt] at h
    exact absurd h (by simp)
  · simp only [validate, if_neg hgt] at h
    by_cases hmany : n > max_combinations
        ((len % USIZE_MOD + USIZE_MOD - il % USIZE_MOD) % USIZE_MOD) % USIZE_MOD
    · rw [if_pos hmany] at h
      exact absurd h (by simp)
    · rw [if_neg hmany] at h
      have hcl := Except.ok.inj h
      push_neg at hgt
      exact ⟨hgt, by rw [← hcl, wrapping_code_len hgt hlen]⟩

end ToCsv

namespace ToCsv

lemma runN_trans {n codeLen : Nat} {initials : Code} {w k₂ : Nat} {b c : Config w}
    (h₂ : RunN n codeLen initials w k₂ b c) :
    ∀ {k₁ : Nat} {a : Config w}, RunN n codeLen initials w k₁ a b →
      RunN n codeLen initials w (k₁ + k₂) a c := by
  induction h₂ with
  | refl cfg =>
    intro k₁ a h₁
    exact h₁
  | tail hr hstep ih =>
    intro k₁ a h₁
    exact RunN.tail (ih h₁) hstep

lemma runN_head {n codeLen : Nat} {initials : Code} {w k : Nat} {a b c : Config w}
    (hs : WStep n codeLen initials w a b) (hr : RunN n codeLen initials w k b c) :
    RunN n codeLen initials w (k + 1) a c := by
  have h := runN_trans hr (RunN.tail (RunN.refl a) hs)
  simpa [Nat.add_comm] using h

/-- Any configuration in which every worker is either about to claim a
ticket or already done, with the counter past `n`, can be completed to a
terminal configuration without touching the coupon set (each remaining
worker claims a ticket `≥ n` and breaks). -/
lemma finish_claiming {n codeLen : Nat} {initials : Code} {w : Nat} :
    ∀ (m : Nat) (cfg : Config w),
      phaseCount Phase.claiming cfg.phases ≤ m →
      (∀ i, cfg.phases i = Phase.claiming ∨ cfg.phases i = Phase.done) →
      n ≤ cfg.shared.counter →
      ∃ k cfg', RunN n codeLen initials w k cfg cfg' ∧ Terminal cfg' ∧
        cfg'.shared.coupons = cfg.shared.coupons := by
  intro m
  induction m with
  | zero =>
    intro cfg hcnt hcd hge
    have hT : Terminal cfg := by
      intro i
      rcases hcd i with h | h
      · exfalso
        have h1 : 1 ≤ phaseCount Phase.claiming cfg.phases := by
          rw [phaseCount_split Phase.claiming cfg.phases i, if_pos h]
          omega
        omega
      · exact h
    exact ⟨0, cfg, RunN.refl cfg, hT, rfl⟩
  | succ m ih =>
    intro cfg hcnt hcd hge
    by_cases hT : Terminal cfg
    · exact ⟨0, cfg, RunN.refl cfg, hT, rfl⟩
    · rw [Terminal] at hT
      push_neg at hT
      obtain ⟨i, hi⟩ := hT
      have hic : cfg.phases i = Phase.claiming := by
        rcases hcd i with h | h
        · exact h
        · exact absurd h hi
      have hstep := @WStep.claimHigh n codeLen initials w cfg i hic hge
      have hupd := phaseCount_update Phase.claiming cfg.phases i Phase.done
      rw [hic] at hupd
      simp at hupd
      have hcnt1 : phaseCount Phase.claiming
          (Function.update cfg.phases i Phase.done) ≤ m := by omega
      have hcd1 : ∀ j, Function.update cfg.phases i Phase.done j = Phase.claiming ∨
          Function.update cfg.phases i Phase.done j = Phase.done := by
        intro j
        by_cases hji : j = i
        · subst hji
          rw [Function.update_same]
          exact Or.inr rfl
        · rw [Function.update_noteq hji]
          exact hcd j
      obtain ⟨k, cfg', hrun, hT', hcoup⟩ :=
        ih ⟨⟨cfg.shared.counter + 1, cfg.shared.coupons⟩,
            Function.update cfg.phases i Phase.done⟩ hcnt1 hcd1 (by dsimp only; omega)
      exact ⟨k + 1, cfg', runN_head hstep hrun, hT', hcoup⟩

/-- When the initials fill the whole code (`codeLen = 0`, `n = 1`), there
is a terminating run producing exactly the singleton `{initials}`. -/
lemma exists_singleton_run (initials : Code) {w : Nat} (hw : 1 ≤ w) :
    ∃ k cfg, RunN 1 0 initials w k (initConfig w) cfg ∧ Terminal cfg ∧
      cfg.shared.coupons = {initials} := by
  have hw' : 0 < w := hw
  have h1 : WStep 1 0 initials w (initConfig w)
      ⟨⟨1, ∅⟩, Function.update (initConfig w).phases ⟨0, hw'⟩ Phase.generating⟩ :=
    WStep.claimLow (initConfig w) ⟨0, hw'⟩ rfl Nat.zero_lt_one
  have h2 : WStep 1 0 initials w
      ⟨⟨1, ∅⟩, Function.update (initConfig w).phases ⟨0, hw'⟩ Phase.generating⟩
      ⟨⟨1, insert (generate_coupon initials []) ∅⟩,
        Function.update (Function.update (initConfig w).phases ⟨0, hw'⟩ Phase.generating)
          ⟨0, hw'⟩ Phase.claiming⟩ := by
    refine WStep.acceptNew _ ⟨0, hw'⟩ [] ?_ rfl ?_ ?_
    · simp
    · intro b hb
      exact absurd hb (List.not_mem_nil b)
    · exact Finset.not_mem_empty _
  have h3 : WStep 1 0 initials w
      ⟨⟨1, insert (generate_coupon initials []) ∅⟩,
        Function.update (Function.update (initConfig w).phases ⟨0, hw'⟩ Phase.generating)
          ⟨0, hw'⟩ Phase.claiming⟩
      ⟨⟨2, insert (generate_coupon initials []) ∅⟩,
        Function.update (Function.update (Function.update (initConfig w).phases ⟨0, hw'⟩
          Phase.generating) ⟨0, hw'⟩ Phase.claiming) ⟨0, hw'⟩ Phase.done⟩ := by
    refine WStep.claimHigh _ ⟨0, hw'⟩ ?_ ?_
    · simp
    · exact le_refl 1
  have hrun3 := RunN.tail (RunN.tail (RunN.tail (RunN.refl (initConfig w)) h1) h2) h3
  have hcd : ∀ j, (Function.update (Function.update (Function.update (initConfig w).phases
      ⟨0, hw'⟩ Phase.generating) ⟨0, hw'⟩ Phase.claiming) ⟨0, hw'⟩ Phase.done) j
        = Phase.claiming ∨
      (Function.update (Function.update (Function.update (initConfig w).phases
      ⟨0, hw'⟩ Phase.generating) ⟨0, hw'⟩ Phase.claiming) ⟨0, hw'⟩ Phase.done) j
        = Phase.done := by
    intro j
    by_cases hj : j = (⟨0, hw'⟩ : Fin w)
    · subst hj
      rw [Function.update_same]
      exact Or.inr rfl
    · rw [Function.update_noteq hj, Function.update_noteq hj, Function.update_noteq hj]
      exact Or.inl rfl
  obtain ⟨k, cfg', hrun', hT', hcoup'⟩ := @finish_claiming 1 0 initials w
    (phaseCount Phase.claiming (Function.update (Function.update (Function.update
      (initConfig w).phases ⟨0, hw'⟩ Phase.generating) ⟨0, hw'⟩ Phase.claiming)
      ⟨0, hw'⟩ Phase.done))
    ⟨⟨2, insert (generate_coupon initials []) ∅⟩,
      Function.update (Function.update (Function.update (initConfig w).phases ⟨0, hw'⟩
        Phase.generating) ⟨0, hw'⟩ Phase.claiming) ⟨0, hw'⟩ Phase.done⟩
    (le_refl _) hcd (by norm_num)
  refine ⟨3 + k, cfg', runN_trans hrun' hrun3, hT', ?_⟩
  rw [hcoup']
  simp [generate_coupon]

lemma validate_full_accepts_one {len il : Nat} (hlen : len ≤ 65535) (heq : il = len) :
    validate len 1 il = Except.ok 0 := by
  subst heq
  have hcl : (il % USIZE_MOD + USIZE_MOD - il % USIZE_MOD) % USIZE_MOD = 0 := by
    rw [USIZE_MOD]; omega
  have hmc : max_combinations 0 = 1 := by
    rw [max_combinations_small (by norm_num)]
    norm_num
  simp only [validate, hcl, hmc, if_neg (lt_irrefl il)]
  norm_num [USIZE_MOD]

lemma validate_full_rejects_two {len il : Nat} (hlen : len ≤ 65535) (heq : il = len) :
    validate len 2 il = Except.error (CouponError.TooManyCoupons 2 1) := by
  subst heq
  have hcl : (il % USIZE_MOD + USIZE_MOD - il % USIZE_MOD) % USIZE_MOD = 0 := by
    rw [USIZE_MOD]; omega
  have hmc : max_combinations 0 = 1 := by
    rw [max_combinations_small (by norm_num)]
    norm_num
  simp only [validate, hcl, hmc, if_neg (lt_irrefl il)]
  norm_num [USIZE_MOD]

/-- `claim_next_ticket`: one `counter.fetch_add(1, SeqCst)` followed by
the `my_number >= number_coupons` break test; returns the claimed ticket
(`none` when the claimed value is out of range) and the new counter. -/
def claimNextTicket (n st : Nat) : Option Nat × Nat :=
  (if n ≤ st then none else some st, st + 1)

/-- The linearization of `k` successive `claim_next_ticket` calls against
the shared counter, starting from 0: the list of returned tickets and the
final counter value. -/
def ticketTrace (n : Nat) : Nat → List (Option Nat) × Nat
  | 0 => ([], 0)
  | k + 1 =>
    ((ticketTrace n k).1 ++ [(claimNextTicket n (ticketTrace n k).2).1],
      (claimNextTicket n (ticketTrace n k).2).2)

lemma ticketTrace_eq (n k : Nat) :
    ticketTrace n k = ((List.range k).map (fun i => if n ≤ i then none else some i), k) := by
  induction k with
  | zero => rfl
  | succ k ih => simp [ticketTrace, ih, claimNextTicket, List.range_succ]

lemma ticketTrace_getD {n k i : Nat} (hik : i < k) :
    (ticketTrace n k).1.getD i none = if n ≤ i then none else some i := by
  rw [ticketTrace_eq]
  have hlen : i < ((List.range k).map (fun j => if n ≤ j then none else some j)).length := by
    simpa using hik
  rw [List.getD_eq_getElem _ _ hlen, List.getElem_map, List.getElem_range]

end ToCsv

/-- C1: for every request that passes validation, any terminated run of
the parallel generator (any worker count `≥ 1`) returns a set of exactly
`required_count` pairwise-distinct codes, each of length `total_length`
and each starting with the prefix. -/
theorem C1_parallel_generation_correct (w len n k : Nat) (initials : Code) (S : Finset Code)
    (hw : 1 ≤ w) (hlen : len ≤ 65535)
    (hrel : ToCsv.couponGeneratorRel w len n initials (Except.ok S) k) :
    S.card = n ∧ ∀ c ∈ S, c.length = len ∧ initials <+: c := by
  cases hrel with
  | ok codeLen k cfg hv hrun hterm =>
    obtain ⟨hle, hcl⟩ := ToCsv.validate_ok_elim hlen hv
    have hinv := ToCsv.inv_run hrun (ToCsv.inv_init n codeLen initials w)
    constructor
    · exact ToCsv.terminal_card hw hinv hterm
    · intro c hc
      obtain ⟨hlength, hpref⟩ := hinv.2.1 c hc
      refine ⟨?_, hpref⟩
      rw [hlength, hcl]
      omega

theorem C1_witness :
    ∃ S k, ToCsv.couponGeneratorRel 1 1 1 ['A'] (Except.ok S) k ∧
      S.card = 1 ∧ ∀ c ∈ S, c.length = 1 ∧ ['A'] <+: c := by
  obtain ⟨k, cfg, hrun, hT, hcoup⟩ := ToCsv.exists_singleton_run ['A'] (le_refl 1)
  have hval : validate 1 1 (['A'] : Code).length = Except.ok 0 :=
    ToCsv.validate_full_accepts_one (by norm_num) rfl
  have hrel := @ToCsv.couponGeneratorRel.ok 1 1 1 ['A'] 0 k cfg hval hrun hT
  exact ⟨cfg.shared.coupons, k, hrel,
    C1_parallel_generation_correct 1 1 1 k ['A'] cfg.shared.coupons
      (le_refl 1) (by norm_num) hrel⟩

/-- C2: when the prefix is longer than the total length, the generator
returns `InitialsTooLong` and performs zero generation-phase actions (no
ticket is claimed, no candidate is produced). -/
theorem C2_initials_too_long_fail_fast (w len n k : Nat) (initials : Code)
    (hgt : len < initials.length) (r : Except CouponError (Finset Code))
    (hrel : ToCsv.couponGeneratorRel w len n initials r k) :
    r = Except.error (CouponError.InitialsTooLong initials.length len) ∧ k = 0 := by
  have hval : validate len n initials.length
      = Except.error (CouponError.InitialsTooLong initials.length len) := by
    simp only [validate, if_pos hgt]
  cases hrel with
  | err e he =>
    rw [hval] at he
    have hee := Except.error.inj he
    exact ⟨by rw [← hee], rfl⟩
  | ok codeLen k cfg hv hrun hterm =>
    rw [hval] at hv
    exact absurd hv (by simp)

theorem C2_witness :
    (Except.error (CouponError.InitialsTooLong 2 1) : Except CouponError (Finset Code))
      = Except.error (CouponError.InitialsTooLong (['A', 'B'] : Code).length 1) ∧
    (0 : Nat) = 0 :=
  C2_initials_too_long_fail_fast 1 1 1 0 ['A', 'B'] (by norm_num)
    (Except.error (CouponError.InitialsTooLong 2 1))
    (ToCsv.couponGeneratorRel.err (CouponError.InitialsTooLong 2 1) rfl)

/-- C4: when the prefix fills the whole code length, requesting one
coupon succeeds (some terminated run exists) and every terminated run
returns exactly the singleton `{prefix}`; requesting two coupons fails
with the too-many-coupons error because the combinatorial space is 1. -/
theorem C4_prefix_fills_length_boundary (w len : Nat) (initials : Code)
    (hw : 1 ≤ w) (hlen : len ≤ 65535) (heq : initials.length = len) :
    (∃ k, ToCsv.couponGeneratorRel w len 1 initials (Except.ok {initials}) k) ∧
    (∀ S k, ToCsv.couponGeneratorRel w len 1 initials (Except.ok S) k → S = {initials}) ∧
    (∀ r k, ToCsv.couponGeneratorRel w len 2 initials r k →
      r = Except.error (CouponError.TooManyCoupons 2 1)) := by
  refine ⟨?_, ?_, ?_⟩
  · obtain ⟨k, cfg, hrun, hT, hcoup⟩ := ToCsv.exists_singleton_run initials hw
    have hval : validate len 1 initials.length = Except.ok 0 :=
      ToCsv.validate_full_accepts_one hlen heq
    exact ⟨k, hcoup ▸ ToCsv.couponGeneratorRel.ok 0 k cfg hval hrun hT⟩
  · intro S k hrel
    cases hrel with
    | ok codeLen k cfg hv hrun hterm =>
      obtain ⟨hle, hcl⟩ := ToCsv.validate_ok_elim hlen hv
      have hinv := ToCsv.inv_run hrun (ToCsv.inv_init 1 codeLen initials w)
      have hcard := ToCsv.terminal_card hw hinv hterm
      have hall : ∀ c ∈ cfg.shared.coupons, c = initials := by
        intro c hc
        obtain ⟨hlength, hpref⟩ := hinv.2.1 c hc
        have : codeLen = 0 := by omega
        exact (hpref.eq_of_length (by omega)).symm
      obtain ⟨a, ha⟩ := Finset.card_eq_one.mp hcard
      have haS : a ∈ cfg.shared.coupons := by
        rw [ha]
        exact Finset.mem_singleton_self a
      rw [ha, hall a haS]
  · intro r k hrel
    have hval : validate len 2 initials.length
        = Except.error (CouponError.TooManyCoupons 2 1) :=
      ToCsv.validate_full_rejects_two hlen heq
    cases hrel with
    | err e he =>
      rw [hval] at he
      have hee := Except.error.inj he
      rw [← hee]
    | ok codeLen k cfg hv hrun hterm =>
      rw [hval] at hv
      exact absurd hv (by simp)

theorem C4_witness :
    (∃ k, ToCsv.couponGeneratorRel 2 1 1 ['A'] (Except.ok {['A']}) k) ∧
    (∀ S k, ToCsv.couponGeneratorRel 2 1 1 ['A'] (Except.ok S) k → S = {['A']}) ∧
    (∀ r k, ToCsv.couponGeneratorRel 2 1 2 ['A'] r k →
      r = Except.error (CouponError.TooManyCoupons 2 1)) :=
  C4_prefix_fills_length_boundary 2 1 ['A'] (by norm_num) (by norm_num) rfl

/-- C6: in the linearized sequence of `claim_next_ticket` calls, every
call returns either a previously-unreturned value in `[0, required_count)`
or `none`; each value is returned at most once, and every call from the
`required_count`-th onwards returns `none`. -/
theorem C6_ticket_counter_unique (n k : Nat) :
    (∀ i v, i < k → (ToCsv.ticketTrace n k).1.getD i none = some v →
      v < n ∧ ∀ j, j < i → (ToCsv.ticketTrace n k).1.getD j none ≠ some v) ∧
    (∀ i, n ≤ i → i < k → (ToCsv.ticketTrace n k).1.getD i none = none) := by
  constructor
  · intro i v hik hsome
    rw [ToCsv.ticketTrace_getD hik] at hsome
    by_cases hn : n ≤ i
    · rw [if_pos hn] at hsome
      exact absurd hsome (by simp)
    · rw [if_neg hn] at hsome
      have hvi : v = i := (Option.some.inj hsome).symm
      push_neg at hn
      subst hvi
      refine ⟨hn, ?_⟩
      intro j hji
      rw [ToCsv.ticketTrace_getD (lt_trans hji hik)]
      by_cases hnj : n ≤ j
      · rw [if_pos hnj]
        simp
      · rw [if_neg hnj]
        simp
        omega
  · intro i hni hik
    rw [ToCsv.ticketTrace_getD hik, if_pos hni]

theorem C6_witness : (ToCsv.ticketTrace 2 3).1.getD 2 none = none :=
  (C6_ticket_counter_unique 2 3).2 2 (by norm_num) (by norm_num)

namespace Api

/-!
Model of the lazy stream of `coupon_generator_API.rs` (lines 115-135).
The `futures::stream::unfold` state is the shared counter and the
deduplication set; one pull either observes `counter ≥ number_coupons`
and ends the stream, or runs the generate/insert retry loop to its first
fresh candidate, yields it and increments the counter.
-/

/-- The unfold state: the completed-emission counter and coupon set. -/
abbrev StreamState := Nat × Finset Code

/-- One pull of the stream: the observed state, the yielded item (`none`
when the stream ends) and the successor state.  The `failures` list
records the candidates discarded inside the retry loop (they collide
with the set and leave the state unchanged). -/
inductive PullRel (n codeLen : Nat) (initials : Code) :
    StreamState → Option Code → StreamState → Prop where
  | exhausted (st : StreamState) :
      n ≤ st.1 →
      PullRel n codeLen initials st none st
  | emit (c : Nat) (s : Finset Code) (failures : List (List Nat)) (bytes : List Nat) :
      c < n →
      (∀ fb ∈ failures, fb.length = codeLen ∧ generate_coupon initials fb ∈ s) →
      bytes.length = codeLen →
      (∀ b ∈ bytes, b < 256) →
      generate_coupon initials bytes ∉ s →
      PullRel n codeLen initials (c, s) (some (generate_coupon initials bytes))
        (c + 1, insert (generate_coupon initials bytes) s)

/-- A single-threaded consumption of the stream: the list of pull
results from a state to a final state. -/
inductive StreamRun (n codeLen : Nat) (initials : Code) :
    StreamState → List (Option Code) → StreamState → Prop where
  | nil (st : StreamState) : StreamRun n codeLen initials st [] st
  | cons (st₁ st₂ st₃ : StreamState) (r : Option Code) (rs : List (Option Code)) :
      PullRel n codeLen initials st₁ r st₂ →
      StreamRun n codeLen initials st₂ rs st₃ →
      StreamRun n codeLen initials st₁ (r :: rs) st₃

lemma streamRun_spec {n codeLen : Nat} {initials : Code} {st st' : StreamState}
    {outs : List (Option Code)}
    (h : StreamRun n codeLen initials st outs st') :
    st.1 ≤ n →
    st'.1 = min (st.1 + outs.length) n ∧
    st'.1 = st.1 + (outs.filterMap id).length ∧
    (∀ i, i < outs.length → (outs.getD i none = none ↔ n ≤ st.1 + i)) ∧
    (outs.filterMap id).Nodup ∧
    (∀ x ∈ outs.filterMap id, x ∈ st'.2 ∧ x ∉ st.2) ∧
    st.2 ⊆ st'.2 := by
  induction h with
  | nil st =>
    intro hle
    refine ⟨?_, by simp, ?_, by simp, by simp, subset_rfl⟩
    · simp only [List.length_nil]
      omega
    · intro i hi
      simp at hi
  | cons st₁ st₂ st₃ r rs hpull hrun ih =>
    intro hle
    cases hpull with
    | exhausted stE hn =>
      obtain ⟨ih1, ih2, ih3, ih4, ih5, ih6⟩ := ih hle
      have hfm : (none :: rs).filterMap (id : Option Code → Option Code)
          = rs.filterMap id := by simp
      refine ⟨?_, ?_, ?_, ?_, ?_, ih6⟩
      · simp only [List.length_cons]
        omega
      · simpa using ih2
      · intro i hi
        cases i with
        | zero =>
          simp only [List.getD_cons_zero]
          constructor
          · intro _
            omega
          · intro _
            trivial
        | succ i =>
          rw [List.getD_cons_succ]
          have hi' : i < List.length rs := by
            simpa using Nat.lt_of_succ_lt_succ hi
          rw [ih3 i hi']
          omega
      · simpa using ih4
      · intro x hx
        rw [hfm] at hx
        exact ih5 x hx
    | emit c s failures bytes hc hfail hblen hb hfresh =>
      obtain ⟨ih1, ih2, ih3, ih4, ih5, ih6⟩ := ih (Nat.succ_le_of_lt hc)
      have hfm : (some (generate_coupon initials bytes) :: rs).filterMap
            (id : Option Code → Option Code)
          = generate_coupon initials bytes :: rs.filterMap id := by simp
      refine ⟨?_, ?_, ?_, ?_, ?_, ?_⟩
      · simp only [List.length_cons]
        omega
      · rw [hfm]
        simp only [List.length_cons]
        omega
      · intro i hi
        cases i with
        | zero =>
          simp only [List.getD_cons_zero]
          constructor
          · intro habs
            exact absurd habs (by simp)
          · intro hna
            exfalso
            have : (c, s).1 = c := rfl
            omega
        | succ i =>
          rw [List.getD_cons_succ]
          have hi' : i < List.length rs := by
            simpa using Nat.lt_of_succ_lt_succ hi
          rw [ih3 i hi']
          omega
      · rw [hfm]
        refine List.nodup_cons.mpr ⟨?_, ih4⟩
        intro hg
        exact (ih5 _ hg).2 (Finset.mem_insert_self _ _)
      · intro x hx
        rw [hfm] at hx
        rcases List.mem_cons.mp hx with hx | hx
        · subst hx
          exact ⟨ih6 (Finset.mem_insert_self _ _), hfresh⟩
        · exact ⟨(ih5 x hx).1, fun hxs => (ih5 x hx).2 (Finset.mem_insert_of_mem hxs)⟩
      · exact subset_trans (Finset.subset_insert _ _) ih6

end Api

/-- C7: a single-threaded consumption of the lazy stream from the fresh
state yields exactly `min pulls required_count` successful items, all
distinct; a pull yields nothing exactly when the shared counter has
already reached `required_count` (i.e. from the `required_count`-th pull
onwards), and the exhausted state is terminal: after a `none` result
every later pull is `none` too. -/
theorem C7_stream_yields_then_exhausts (n codeLen : Nat) (initials : Code)
    (outs : List (Option Code)) (st : Api.StreamState)
    (h : Api.StreamRun n codeLen initials (0, ∅) outs st) :
    (outs.filterMap id).length = min outs.length n ∧
    (outs.filterMap id).Nodup ∧
    (∀ i, i < outs.length → (outs.getD i none = none ↔ n ≤ i)) ∧
    (∀ i j, i ≤ j → j < outs.length →
      outs.getD i none = none → outs.getD j none = none) := by
  obtain ⟨h1, h2, h3, h4, h5, h6⟩ := Api.streamRun_spec h (Nat.zero_le n)
  dsimp only at h1 h2 h3
  refine ⟨by omega, h4, ?_, ?_⟩
  · intro i hi
    rw [h3 i hi]
    omega
  · intro i j hij hj hnone
    have hi := (h3 i (lt_of_le_of_lt hij hj)).mp hnone
    rw [h3 j hj]
    omega

theorem C7_witness :
    (([some (generate_coupon [] [0]), none] : List (Option Code)).filterMap id).length
      = min ([some (generate_coupon [] [0]), none] : List (Option Code)).length 1 := by
  have hrun : Api.StreamRun 1 1 [] (0, ∅) [some (generate_coupon [] [0]), none]
      (1, insert (generate_coupon [] [0]) ∅) :=
    Api.StreamRun.cons _ _ _ _ _
      (Api.PullRel.emit 0 ∅ [] [0] Nat.zero_lt_one (by simp) rfl (by decide)
        (Finset.not_mem_empty _))
      (Api.StreamRun.cons _ _ _ _ _
        (Api.PullRel.exhausted (1, insert (generate_coupon [] [0]) ∅) (le_refl 1))
        (Api.StreamRun.nil _))
  exact (C7_stream_yields_then_exhausts 1 1 [] _ _ hrun).1

namespace Csv

/-!
Model of `write_coupons_to_csv` (lines 161-174 of
`coupon_generator_to_csv_latest.rs`): the `csv::Writer` writes the
single-field header record `Coupon` and then one single-field record per
coupon, each record terminated by a newline.  Since no field of this
output contains a separator, quote or newline, each record is exactly
its field followed by the terminator.
-/

/-- The header record `Coupon`. -/
def couponHeader : Code := ['C', 'o', 'u', 'p', 'o', 'n']

/-- Serialize one single-field record per list element, each terminated
by a newline. -/
def renderLines (ls : List Code) : List Char :=
  ls.foldr (fun l acc => l ++ '\n' :: acc) []

/-- `write_coupons_to_csv`: the header record followed by one record per
coupon. -/
def write_coupons_to_csv (coupons : List Code) : List Char :=
  renderLines (couponHeader :: coupons)

lemma dropWhile_length_le (p : Char → Bool) (l : List Char) :
    (l.dropWhile p).length ≤ l.length := by
  induction l with
  | nil => simp
  | cons a l ih =>
    rw [List.dropWhile_cons]
    split
    · exact le_trans ih (Nat.le_succ _)
    · exact le_refl _

/-- Parse the tabular text back into its newline-terminated records. -/
def parseLines (cs : List Char) : List Code :=
  if h : cs = [] then []
  else
    cs.takeWhile (fun c => c ≠ '\n') ::
      parseLines ((cs.dropWhile (fun c => c ≠ '\n')).tail)
termination_by cs.length
decreasing_by
  have h1 : (cs.dropWhile (fun c => decide (c ≠ '\n'))).length ≤ cs.length :=
    dropWhile_length_le _ cs
  have h2 : 0 < cs.length := List.length_pos.mpr h
  rw [List.length_tail]
  omega

lemma takeWhile_append_newline (l : Code) (rest : List Char) (hl : '\n' ∉ l) :
    (l ++ '\n' :: rest).takeWhile (fun c => decide (c ≠ '\n')) = l := by
  induction l with
  | nil =>
    simp
  | cons a l ih =>
    rw [List.mem_cons] at hl
    push_neg at hl
    rw [List.cons_append, List.takeWhile_cons_of_pos (by simpa using hl.1.symm)]
    rw [ih hl.2]

lemma dropWhile_append_newline (l : Code) (rest : List Char) (hl : '\n' ∉ l) :
    (l ++ '\n' :: rest).dropWhile (fun c => decide (c ≠ '\n')) = '\n' :: rest := by
  induction l with
  | nil =>
    simp
  | cons a l ih =>
    rw [List.mem_cons] at hl
    push_neg at hl
    rw [List.cons_append, List.dropWhile_cons_of_pos (by simpa using hl.1.symm)]
    exact ih hl.2

lemma parse_render (ls : List Code) (hnl : ∀ l ∈ ls, '\n' ∉ l) :
    parseLines (renderLines ls) = ls := by
  induction ls with
  | nil =>
    show parseLines [] = []
    unfold parseLines
    simp
  | cons l ls ih =>
    have hl : '\n' ∉ l := hnl l (List.mem_cons_self l ls)
    have hls : ∀ x ∈ ls, '\n' ∉ x := fun x hx => hnl x (List.mem_cons_of_mem l hx)
    have hrender : renderLines (l :: ls) = l ++ '\n' :: renderLines ls := rfl
    rw [hrender]
    unfold parseLines
    have hne : ¬ (l ++ '\n' :: renderLines ls = ([] : List Char)) := by simp
    rw [dif_neg hne]
    rw [takeWhile_append_newline l _ hl, dropWhile_append_newline l _ hl]
    rw [List.tail_cons, ih hls]

end Csv

/-- C8: exporting a list of `required_count` newline-free codes to the
tabular format and parsing it back yields the header record `Coupon`
followed by exactly the exported codes: `required_count + 1` records in
total, the set of non-header records being the exported set. -/
theorem C8_csv_round_trip (n : Nat) (coupons : List Code)
    (hn : coupons.length = n) (hnl : ∀ c ∈ coupons, '\n' ∉ c) :
    Csv.parseLines (Csv.write_coupons_to_csv coupons) = Csv.couponHeader :: coupons ∧
    (Csv.parseLines (Csv.write_coupons_to_csv coupons)).length = n + 1 ∧
    (Csv.parseLines (Csv.write_coupons_to_csv coupons)).headD [] = Csv.couponHeader ∧
    (Csv.parseLines (Csv.write_coupons_to_csv coupons)).tail.toFinset
      = coupons.toFinset := by
  have hall : ∀ l ∈ Csv.couponHeader :: coupons, '\n' ∉ l := by
    intro l hl
    rcases List.mem_cons.mp hl with h | h
    · subst h
      decide
    · exact hnl l h
  have h : Csv.parseLines (Csv.write_coupons_to_csv coupons)
      = Csv.couponHeader :: coupons := Csv.parse_render _ hall
  refine ⟨h, ?_, ?_, ?_⟩
  · rw [h]
    simp [hn]
  · rw [h]
    rfl
  · rw [h]
    simp

theorem C8_witness :
    Csv.parseLines (Csv.write_coupons_to_csv [['A']]) = Csv.couponHeader :: [['A']] :=
  (C8_csv_round_trip 1 [['A']] rfl (by decide)).1

namespace Large

/-!
Model of the worker loop of `coupon_generator_large.rs` (lines 60-75):
there is no ticket counter; each worker generates, inserts under the
mutex, and breaks only when its own insert succeeded while the set has
reached `target_count` (`if set.insert(coupon) { if set.len() >= target
{ break } }`, all under one lock acquisition).
-/

/-- The shared coupon set and the live flag of each worker. -/
structure LConfig (w : Nat) where
  coupons : Finset Code
  running : Fin w → Bool

/-- Initial configuration: empty set, all workers looping. -/
def LInit (w : Nat) : LConfig w := ⟨∅, fun _ => true⟩

/-- All workers have broken out of their loops. -/
def LTerminal {w : Nat} (cfg : LConfig w) : Prop := ∀ i, cfg.running i = false

/-- One generate-and-insert attempt of one live worker, under the lock. -/
inductive LStep (n codeLen : Nat) (initials : Code) (w : Nat) :
    LConfig w → LConfig w → Prop where
  /-- The candidate collides: `insert` returns false, nothing changes,
  the worker keeps looping. -/
  | dup (cfg : LConfig w) (i : Fin w) (bytes : List Nat) :
      cfg.running i = true →
      bytes.length = codeLen →
      (∀ b ∈ bytes, b < 256) →
      generate_coupon initials bytes ∈ cfg.coupons →
      LStep n codeLen initials w cfg cfg
  /-- The candidate is fresh but the set is still below target after the
  insert: the worker keeps looping. -/
  | insertLow (cfg : LConfig w) (i : Fin w) (bytes : List Nat) :
      cfg.running i = true →
      bytes.length = codeLen →
      (∀ b ∈ bytes, b < 256) →
      generate_coupon initials bytes ∉ cfg.coupons →
      (insert (generate_coupon initials bytes) cfg.coupons).card < n →
      LStep n codeLen initials w cfg
        ⟨insert (generate_coupon initials bytes) cfg.coupons, cfg.running⟩
  /-- The candidate is fresh and the set has reached the target after
  the insert: the worker breaks. -/
  | insertHigh (cfg : LConfig w) (i : Fin w) (bytes : List Nat) :
      cfg.running i = true →
      bytes.length = codeLen →
      (∀ b ∈ bytes, b < 256) →
      generate_coupon initials bytes ∉ cfg.coupons →
      n ≤ (insert (generate_coupon initials bytes) cfg.coupons).card →
      LStep n codeLen initials w cfg
        ⟨insert (generate_coupon initials bytes) cfg.coupons,
          Function.update cfg.running i false⟩

/-- Reachability by any interleaving of worker attempts. -/
def LReach (n codeLen : Nat) (initials : Code) (w : Nat) :
    LConfig w → LConfig w → Prop :=
  Relation.ReflTransGen (LStep n codeLen initials w)

/-- A worker can only have stopped after the set reached the target. -/
def LInv (n : Nat) {w : Nat} (cfg : LConfig w) : Prop :=
  (∃ i, cfg.running i = false) → n ≤ cfg.coupons.card

lemma linv_step {n codeLen : Nat} {initials : Code} {w : Nat} {cfg cfg' : LConfig w}
    (hstep : LStep n codeLen initials w cfg cfg') (hinv : LInv n cfg) : LInv n cfg' := by
  cases hstep with
  | dup i bytes hrun hlen hb hdup => exact hinv
  | insertLow i bytes hrun hlen hb hfresh hlow =>
    rintro ⟨j, hj⟩
    have hj' : cfg.running j = false := hj
    have := hinv ⟨j, hj'⟩
    calc n ≤ cfg.coupons.card := this
      _ ≤ (insert (generate_coupon initials bytes) cfg.coupons).card :=
        Finset.card_le_card (Finset.subset_insert _ _)
  | insertHigh i bytes hrun hlen hb hfresh hhigh =>
    intro _
    exact hhigh

lemma linv_reach {n codeLen : Nat} {initials : Code} {w : Nat} {cfg cfg' : LConfig w}
    (hreach : LReach n codeLen initials w cfg cfg') (hinv : LInv n cfg) : LInv n cfg' := by
  induction hreach with
  | refl => exact hinv
  | tail hr hstep ih => exact linv_step hstep ih

lemma linv_init (n w : Nat) : LInv n (LInit w) := by
  rintro ⟨i, hi⟩
  exact absurd hi (by simp [LInit])

end Large

/-- C9: in the ticket-less parallel variant (`coupon_generator_large.rs`)
a worker exits only through a successful insert made while the registry
holds at least `required_count` codes, so every terminated run from the
initial configuration holds at least `required_count` distinct codes —
and some two-worker interleaving terminates with strictly more than
`required_count` codes. -/
theorem C9_large_variant_overshoot :
    (∀ (w n codeLen : Nat) (initials : Code) (cfg : Large.LConfig w),
      1 ≤ w → Large.LReach n codeLen initials w (Large.LInit w) cfg →
      Large.LTerminal cfg → n ≤ cfg.coupons.card) ∧
    (∃ cfg : Large.LConfig 2, Large.LReach 1 1 [] 2 (Large.LInit 2) cfg ∧
      Large.LTerminal cfg ∧ 1 < cfg.coupons.card) := by
  constructor
  · intro w n codeLen initials cfg hw hreach hterm
    have hinv := Large.linv_reach hreach (Large.linv_init n w)
    exact hinv ⟨⟨0, hw⟩, hterm ⟨0, hw⟩⟩
  · refine ⟨⟨insert (generate_coupon [] [1]) (insert (generate_coupon [] [0]) ∅),
      Function.update (Function.update (Large.LInit 2).running ⟨0, by norm_num⟩ false)
        ⟨1, by norm_num⟩ false⟩, ?_, ?_, ?_⟩
    · have hstep1 : Large.LStep 1 1 [] 2 (Large.LInit 2)
          ⟨insert (generate_coupon [] [0]) ∅,
            Function.update (Large.LInit 2).running ⟨0, by norm_num⟩ false⟩ :=
        Large.LStep.insertHigh (Large.LInit 2) ⟨0, by norm_num⟩ [0] rfl rfl (by decide)
          (Finset.not_mem_empty _) (by simp)
      have hstep2 : Large.LStep 1 1 [] 2
          ⟨insert (generate_coupon [] [0]) ∅,
            Function.update (Large.LInit 2).running ⟨0, by norm_num⟩ false⟩
          ⟨insert (generate_coupon [] [1]) (insert (generate_coupon [] [0]) ∅),
            Function.update (Function.update (Large.LInit 2).running ⟨0, by norm_num⟩ false)
              ⟨1, by norm_num⟩ false⟩ :=
        Large.LStep.insertHigh _ ⟨1, by norm_num⟩ [1]
          (by dsimp only; rw [Function.update_noteq (Fin.ne_of_val_ne (by norm_num))]; rfl)
          rfl (by decide) (by decide) (by simp)
      exact Relation.ReflTransGen.head hstep1
        (Relation.ReflTransGen.head hstep2 Relation.ReflTransGen.refl)
    · intro i
      match i with
      | ⟨0, h0⟩ =>
        dsimp only
        rw [Function.update_noteq (Fin.ne_of_val_ne (by norm_num)), Function.update_same]
      | ⟨1, _⟩ =>
        dsimp only
        rw [Function.update_same]
    · have hne : generate_coupon [] [1] ∉ insert (generate_coupon [] [0]) (∅ : Finset Code) := by decide
      rw [Finset.card_insert_of_not_mem hne]
      simp
